import Mathlib

/-!
# Verification of the java-rs lexing and parsing core

This development is a shallow embedding of the `lib/parser` crate of the
java-rs repository: the grapheme-aware `Source` model (`lexer/source.rs`,
`lexer/grapheme.rs`, `lexer/span.rs`), the token taxonomy (`lexer/token.rs`),
the streaming tokenizer (`lexer/mod.rs`) and the recursive-descent parser
(`parser/mod.rs`, `parser/tree/*`).

Modelling conventions:
* Rust `&str` values are modelled as `List Char` (Unicode scalar values);
  byte positions are recovered through `Char.utf8Size`, which is the length
  of the UTF-8 encoding of a scalar value, exactly as in Rust.
* `usize` is modelled as `Nat`; the one place the code can underflow
  (`GraphemeIndex - usize` in `translate_indices`) is modelled explicitly.
* A Rust panic (`unwrap`/`expect` failure, `panic!`) is modelled by an
  `Option` result being `none`.
* The `unicode_segmentation` crate is external to the repository; its
  extended-grapheme-cluster segmentation is modelled by `segmentModel`
  below (see its doc comment).
-/

namespace JavaRS

/-- `lexer/grapheme.rs`: `GraphemeIndex` is a transparent wrapper around
`usize`; we model it directly as `Nat`.  `lexer/span.rs`: a `Span` is a pair
of grapheme indices (`start`, `end`); the `end` field is called `stop` here
because `end` is a Lean keyword. -/
structure Span where
  start : Nat
  stop : Nat
deriving DecidableEq

/-- Total UTF-8 byte length of a string, as `str::len` in Rust. -/
def utf8Len (s : List Char) : Nat := (s.map Char.utf8Size).sum

/-- Model of Rust `char::from_str`: succeeds exactly on strings that consist
of a single scalar value.  (`Source` construction and `Source::matches` call
`char::from_str(..).unwrap()` on every grapheme cluster, which panics —
modelled as `none` — whenever a cluster holds more than one scalar value.) -/
def charFromStr : List Char → Option Char
  | [c] => some c
  | _ => none

/-- Model of `str::get(a..b)` on Rust strings: defined when `a ≤ b`, both
are within the string and both fall on character boundaries; `dropBytes`
consumes `a` bytes (failing off a boundary), `takeBytes` then keeps `b - a`
bytes. -/
def dropBytes : List Char → Nat → Option (List Char)
  | s, 0 => some s
  | [], _ + 1 => none
  | c :: rest, b + 1 =>
    if c.utf8Size ≤ b + 1 then dropBytes rest (b + 1 - c.utf8Size) else none

def takeBytes : List Char → Nat → Option (List Char)
  | _, 0 => some []
  | [], _ + 1 => none
  | c :: rest, b + 1 =>
    if c.utf8Size ≤ b + 1 then (takeBytes rest (b + 1 - c.utf8Size)).map (c :: ·)
    else none

def strGet (s : List Char) (a b : Nat) : Option (List Char) :=
  if a ≤ b then (dropBytes s a).bind (fun t => takeBytes t (b - a)) else none

/-- Unicode combining diacritical marks U+0300–U+036F (grapheme-cluster-break
property `Extend`); the fragment of the `Extend` class this development
exercises. -/
def isCombining (c : Char) : Bool := 0x300 ≤ c.toNat && c.toNat ≤ 0x36F

/-- Whether a scalar value is a C0 control or DEL (grapheme-cluster-break
property `Control`, with CR handled separately). -/
def isControlGC (c : Char) : Bool := c.toNat < 0x20 || c.toNat == 0x7F

/-- Modelled from the spec: the repository delegates grapheme segmentation to
the external `unicode_segmentation` crate ("a Unicode-correct algorithm" per
the spec, i.e. UAX #29 extended grapheme clusters).  The crate is not part of
the repository, so we model the fragment of UAX #29 that the inputs of this
development exercise: CR LF forms a single cluster, a control character is a
cluster by itself, and any other character absorbs the combining marks that
follow it.  On ASCII text without CR this yields one cluster per character,
as UAX #29 does. -/
def segFuel : Nat → List Char → List (List Char)
  | 0, _ => []
  | _ + 1, [] => []
  | fuel + 1, '\r' :: '\n' :: rest => ['\r', '\n'] :: segFuel fuel rest
  | fuel + 1, c :: rest =>
    if isControlGC c then [c] :: segFuel fuel rest
    else
      (c :: rest.takeWhile isCombining) ::
        segFuel fuel (rest.drop (rest.takeWhile isCombining).length)

/-- Each step of `segFuel` consumes at least one character, so fuel equal to
the input length always suffices (`segFuel_fuel_irrel` below). -/
def segmentModel (s : List Char) : List (List Char) :=
  segFuel s.length s

/-- `lexer/source.rs`: `Source` owns the original text and the derived
`(starting byte offset, representative char)` table, one entry per grapheme
cluster. -/
structure Source where
  input : List Char
  graphemes : List (Nat × Char)
deriving DecidableEq

/-- The `(byte offset, char)` table built by `to_grapheme_indices`, given the
cluster list: offsets are running byte offsets, the representative char is
`char::from_str(cluster).unwrap()` (a panic — `none` — on a multi-scalar
cluster). -/
def clusterTable : List (List Char) → Nat → Option (List (Nat × Char))
  | [], _ => some []
  | g :: gs, off =>
    (charFromStr g).bind fun c =>
      (clusterTable gs (off + utf8Len g)).map fun rest => (off, c) :: rest

/-- `<Source as From<&str>>::from` composed with `to_grapheme_indices`,
parameterised by the segmentation function. -/
def Source.build (seg : List Char → List (List Char)) (input : List Char) :
    Option Source :=
  (clusterTable (seg input) 0).map fun table => { input := input, graphemes := table }

/-- The grapheme table of a text all of whose grapheme clusters are single
scalar values: entry `k` is (starting byte offset of character `k`, character
`k`).  `build_singleton_clusters` below shows this is exactly the table
`Source::from` computes whenever the segmentation yields one-character
clusters. -/
def canonicalTable : List Char → Nat → List (Nat × Char)
  | [], _ => []
  | c :: rest, off => (off, c) :: canonicalTable rest (off + c.utf8Size)

/-- `Source::translate_index`. -/
def Source.translate_index (src : Source) (i : Nat) : Option Nat :=
  (src.graphemes.get? i).map Prod.fst

/-- `Source::char_at` (also exposed through `Lexer::char_at`). -/
def Source.char_at (src : Source) (i : Nat) : Option Char :=
  (src.graphemes.get? i).map Prod.snd

/-- `Source::translate_indices`.  The Rust code computes `end - 1` on a
`usize`, so a span with `end = 0` underflows: that panics in a debug build
and in a release build wraps to an index that is out of every table's range,
making the lookup `None`; we model that case as `none`.  The final
`input.get(start..=end)` is `str::get` over the inclusive byte range, i.e.
`strGet start (end + 1)`. -/
def Source.translate_indices (src : Source) (start stop : Nat) :
    Option (List Char) :=
  if stop = 0 then none
  else
    (src.translate_index start).bind fun a =>
      (src.translate_index (stop - 1)).bind fun b =>
        strGet src.input a (b + 1)

/-- `Source::resolve_span` (also exposed through `Parser::resolve_span`). -/
def Source.resolve_span (src : Source) (sp : Span) : Option (List Char) :=
  src.translate_indices sp.start sp.stop

/-- The loop body of `Source::matches`: walk the source characters from the
offset against the grapheme clusters of the probe string, pulling each
cluster through `char::from_str(..).unwrap()` (a panic — `none` — on a
multi-scalar cluster).  The probe may end before the source does (prefix
semantics); if the source ends first the probe must be exhausted too. -/
def matchesAux : List Char → List (List Char) → Option Bool
  | [], [] => some true
  | [], g :: _ => (charFromStr g).map fun _ => false
  | _ :: _, [] => some true
  | c :: cs, g :: gs =>
    (charFromStr g).bind fun n =>
      if n = c then matchesAux cs gs else some false

/-- `Source::matches` (also exposed through `Lexer::matches`), with the probe
string given by its grapheme-cluster list. -/
def Source.matches (src : Source) (offset : Nat) (probe : List (List Char)) :
    Option Bool :=
  matchesAux ((src.graphemes.drop offset).map Prod.snd) probe

/-! ## Token taxonomy (`lexer/token.rs`) -/

/-- `Separator` variants. -/
inductive SepKind where
  | semicolon | comma | dot | leftPar | rightPar
  | leftCurly | rightCurly | leftBracket | rightBracket
deriving DecidableEq

structure Separator where
  kind : SepKind
  span : Span
deriving DecidableEq

/-- `Literal` variants. -/
inductive LitKind where
  | integer | floatingPoint | character | stringLit | boolean
deriving DecidableEq

structure Literal where
  kind : LitKind
  span : Span
deriving DecidableEq

/-- `Operator` variants. -/
inductive OpKind where
  | arithmetic | assignment | relational | unary | logical
  | bitwise | shift | questionMark | colon
deriving DecidableEq

structure Operator where
  kind : OpKind
  span : Span
deriving DecidableEq

/-- `Comment` variants. -/
inductive ComKind where
  | line | block
deriving DecidableEq

structure Comment where
  kind : ComKind
  span : Span
deriving DecidableEq

/-- The Rust `Keyword` enum has one variant per reserved word, each carrying a
`Span`, and `Keyword::try_from_str` puts variants and reserved-word strings in
bijection.  We model a keyword through that bijection, as the reserved word's
text plus the span. -/
structure Keyword where
  text : List Char
  span : Span
deriving DecidableEq

structure Ident where
  span : Span
deriving DecidableEq

inductive Token where
  | keyword (k : Keyword)
  | ident (id : Ident)
  | literal (l : Literal)
  | operator (o : Operator)
  | separator (s : Separator)
  | comment (c : Comment)
deriving DecidableEq

/-- `Token::span`. -/
def Token.span : Token → Span
  | .keyword k => k.span
  | .ident id => id.span
  | .literal l => l.span
  | .operator o => o.span
  | .separator s => s.span
  | .comment c => c.span

/-- The `KEYWORDS` table, in its exact source order: sorted alphabetically
except that a keyword that is a prefix of another ("do"/"double",
"final"/"finally", "int"/"interface", "throw"/"throws") is probed after the
longer one. -/
def KEYWORDS : List (List Char) :=
  [ "abstract".toList, "assert".toList, "boolean".toList, "break".toList,
    "byte".toList, "case".toList, "catch".toList, "char".toList,
    "class".toList, "const".toList, "continue".toList, "default".toList,
    "double".toList, "do".toList, "else".toList, "enum".toList,
    "extends".toList, "finally".toList, "final".toList, "float".toList,
    "for".toList, "goto".toList, "if".toList, "implements".toList,
    "import".toList, "instanceof".toList, "interface".toList, "int".toList,
    "long".toList, "native".toList, "new".toList, "package".toList,
    "private".toList, "protected".toList, "public".toList, "return".toList,
    "short".toList, "static".toList, "strictfp".toList, "super".toList,
    "switch".toList, "synchronized".toList, "this".toList, "throws".toList,
    "throw".toList, "transient".toList, "try".toList, "void".toList,
    "volatile".toList, "while".toList]

/-- The `SEPARATORS` table, in source order. -/
def SEPARATORS : List (List Char) :=
  [[';'], [','], ['.'], ['('], [')'], ['{'], ['}'], ['['], [']']]

/-- The `BOOLEAN_VALUES` table, in source order. -/
def BOOLEAN_VALUES : List (List Char) :=
  [ "true".toList, "false".toList]

/-- `Separator::try_from_str`. -/
def Separator.tryFromStr (s : List Char) (sp : Span) : Option Separator :=
  match s with
  | [';'] => some ⟨.semicolon, sp⟩
  | [','] => some ⟨.comma, sp⟩
  | ['.'] => some ⟨.dot, sp⟩
  | ['('] => some ⟨.leftPar, sp⟩
  | [')'] => some ⟨.rightPar, sp⟩
  | ['{'] => some ⟨.leftCurly, sp⟩
  | ['}'] => some ⟨.rightCurly, sp⟩
  | ['['] => some ⟨.leftBracket, sp⟩
  | [']'] => some ⟨.rightBracket, sp⟩
  | _ => none

/-! ## The lexer (`lexer/mod.rs`) -/

/-- Model of Rust `char::is_whitespace`: the Unicode `White_Space` property,
a fixed list of 25 scalar values. -/
def rustIsWhitespace (c : Char) : Bool :=
  ([0x09, 0x0A, 0x0B, 0x0C, 0x0D, 0x20, 0x85, 0xA0, 0x1680,
    0x2000, 0x2001, 0x2002, 0x2003, 0x2004, 0x2005, 0x2006, 0x2007, 0x2008,
    0x2009, 0x200A, 0x2028, 0x2029, 0x202F, 0x205F, 0x3000] : List Nat).contains c.toNat

/-- `is_java_whitespace` from `lexer/mod.rs`, with `c.is_whitespace()`
modelled by `rustIsWhitespace`. -/
def is_java_whitespace (c : Char) : Bool :=
  rustIsWhitespace c
    || c == ' '
    || c == '\t'
    || c == '\n'
    || c == '\r'
    || c == '\u000C'
    || c == '\u000B'
    || c == '\u2007'
    || c == '\u202F'
    || c == '\u001C'
    || c == '\u001D'
    || c == '\u001E'
    || c == '\u001F'

/-- Model of Rust `char::is_alphabetic` (the Unicode `Alphabetic` property):
exact on the ASCII range, plus the only non-ASCII alphabetic scalar value
this development exercises (U+00E9, latin small letter e with acute). -/
def rustIsAlphabetic (c : Char) : Bool :=
  c.isAlpha || c.toNat == 0xE9

/-- `is_java_identifier_start` from `lexer/mod.rs`. -/
def is_java_identifier_start (c : Char) : Bool :=
  rustIsAlphabetic c || c == '_' || c == '$'

/-- `is_java_identifier_part` from `lexer/mod.rs` (`is_ascii_digit` is
`Char.isDigit`). -/
def is_java_identifier_part (c : Char) : Bool :=
  is_java_identifier_start c || c.isDigit

/-- `Lexer::count_consecutive_matches`. -/
def count_consecutive_matches (src : Source) (offset : Nat) (f : Char → Bool) : Nat :=
  ((src.graphemes.drop offset).takeWhile fun p => f p.2).length

/-- `TokenIterator::next_keyword`: linearly probe the `KEYWORDS` table at the
cursor; on a match, advance by the keyword's grapheme count.  The Rust code
then calls `Keyword::try_from_str(keyword, span).unwrap()`, which cannot fail
because the probe string is a table entry; in our text model of `Keyword` the
constructed value is `⟨keyword, span⟩`. -/
def next_keyword (src : Source) (i : Nat) : Option (Keyword × Nat) :=
  KEYWORDS.findSome? fun kw =>
    if src.matches i (segmentModel kw) = some true then
      some (⟨kw, ⟨i, i + (segmentModel kw).length⟩⟩, i + (segmentModel kw).length)
    else none

/-- `TokenIterator::next_separator`: the same probing over `SEPARATORS`,
with the token built by `Separator::try_from_str(..).unwrap()` (which cannot
fail on a table entry). -/
def next_separator (src : Source) (i : Nat) : Option (Separator × Nat) :=
  SEPARATORS.findSome? fun s =>
    if src.matches i (segmentModel s) = some true then
      (Separator.tryFromStr s ⟨i, i + (segmentModel s).length⟩).map
        fun sep => (sep, i + (segmentModel s).length)
    else none

/-- `TokenIterator::next_boolean_literal`: probe the `BOOLEAN_VALUES`
table. -/
def next_boolean_literal (src : Source) (i : Nat) : Option (Literal × Nat) :=
  BOOLEAN_VALUES.findSome? fun b =>
    if src.matches i (segmentModel b) = some true then
      some (⟨.boolean, ⟨i, i + (segmentModel b).length⟩⟩, i + (segmentModel b).length)
    else none

/-- The `while` loop of `TokenIterator::next_string_literal`, over the
characters after the opening quote: returns the number of characters consumed
and whether an unescaped closing quote was found (the consumed count then
includes it). -/
def scanString : List Char → Bool → Nat × Bool
  | [], _ => (0, false)
  | _ :: rest, true =>
    let r := scanString rest false
    (r.1 + 1, r.2)
  | c :: rest, false =>
    if c = '"' then (1, true)
    else if c = '\\' then
      let r := scanString rest true
      (r.1 + 1, r.2)
    else
      let r := scanString rest false
      (r.1 + 1, r.2)

/-- `TokenIterator::next_string_literal`: on an opening quote, scan to the
first unescaped closing quote or to end of input.  When the string is
unterminated the recorded span keeps its initial `end` of `start + 1` while
the cursor still advances to end of input. -/
def next_string_literal (src : Source) (i : Nat) : Option (Literal × Nat) :=
  if src.char_at i = some '"' then
    let r := scanString ((src.graphemes.drop (i + 1)).map Prod.snd) false
    if r.2 then some (⟨.stringLit, ⟨i, i + 1 + r.1⟩⟩, i + 1 + r.1)
    else some (⟨.stringLit, ⟨i, i + 1⟩⟩, i + 1 + r.1)
  else none

/-- `TokenIterator::next_literal`: string literals are tried before boolean
literals. -/
def next_literal (src : Source) (i : Nat) : Option (Literal × Nat) :=
  match next_string_literal src i with
  | some r => some r
  | none => next_boolean_literal src i

/-- `TokenIterator::next_identifier`.  The Rust code panics
(`panic!("unexpected end of input")`) when the cursor is past the end; that
branch — modelled as `none` — is unreachable from `TokenIterator::next`,
which checks the bound first. -/
def next_identifier (src : Source) (i : Nat) : Option (Ident × Nat) :=
  match src.char_at i with
  | none => none
  | some c =>
    if is_java_identifier_start c then
      some (⟨⟨i, i + count_consecutive_matches src i is_java_identifier_part⟩⟩,
        i + count_consecutive_matches src i is_java_identifier_part)
    else none

/-- `TokenIterator::skip_whitespace` (via `advance_while`): the cursor after
skipping the whitespace run at `i`. -/
def skip_whitespace (src : Source) (i : Nat) : Nat :=
  i + count_consecutive_matches src i is_java_whitespace

/-- `<TokenIterator as Iterator>::next`: skip whitespace, stop at end of
input, then try keyword, separator, literal, identifier in that order
(literals before identifiers so that "true"/"false" never lex as
identifiers).  Returns the token and the advanced cursor. -/
def lexNext (src : Source) (i : Nat) : Option (Token × Nat) :=
  let i1 := skip_whitespace src i
  if src.graphemes.length ≤ i1 then none
  else
    match next_keyword src i1 with
    | some (k, j) => some (.keyword k, j)
    | none =>
      match next_separator src i1 with
      | some (s, j) => some (.separator s, j)
      | none =>
        match next_literal src i1 with
        | some (l, j) => some (.literal l, j)
        | none =>
          match next_identifier src i1 with
          | some (id, j) => some (.ident id, j)
          | none => none

/-- Collecting the token stream: `tokensFuel src fuel i` unfolds
`TokenIterator::next` from cursor `i` at most `fuel` times.  Each produced
token advances the cursor (`lexNext_progress` below), so fuel
`src.graphemes.length + 1` always suffices (`tokensFuel_eq_of_le`):
`lexTokens` is the full, finite token sequence of the iterator. -/
def tokensFuel (src : Source) : Nat → Nat → List Token
  | 0, _ => []
  | fuel + 1, i =>
    match lexNext src i with
    | none => []
    | some (t, j) => t :: tokensFuel src fuel j

def lexTokens (src : Source) : List Token :=
  tokensFuel src (src.graphemes.length + 1) 0

/-! ## AST (`parser/tree/*`) and diagnostics (`parser/error.rs`) -/

structure Identifier where
  span : Span
deriving DecidableEq

structure QualifiedName where
  segments : List Identifier
deriving DecidableEq

inductive ImportDeclaration where
  | singleType (n : QualifiedName)
  | onDemand (n : QualifiedName)
  | staticSingleType (n : QualifiedName)
  | staticOnDemand (n : QualifiedName)
deriving DecidableEq

/-- `TypeDeclaration`: the parser under verification never constructs one
(`Parser::compilation_unit` has no type-declaration rule), so its payload
never matters here and it is modelled as an empty type. -/
inductive TypeDeclaration : Type

instance : DecidableEq TypeDeclaration := fun a => nomatch a

/-- `parser/error.rs`: the diagnostic type.  The `expected` lists are the
Rust `&'static [&'static str]` category names. -/
inductive Error where
  | unexpectedToken (found : Option Token) (expected : List (List Char))
  | unexpectedEOF (expected : List (List Char))
  | notImplemented (sp : Option Span)
deriving DecidableEq

/-- The `found` field of an `UnexpectedToken` diagnostic. -/
def Error.found : Error → Option Token
  | .unexpectedToken f _ => f
  | _ => none

structure CompilationUnit where
  errors : List Error
  package : Option QualifiedName
  imports : List ImportDeclaration
  types : List TypeDeclaration
deriving DecidableEq

def CompilationUnit.new : CompilationUnit := ⟨[], none, [], []⟩

def CompilationUnit.add_error (cu : CompilationUnit) (e : Error) : CompilationUnit :=
  { cu with errors := cu.errors ++ [e] }

def CompilationUnit.set_package (cu : CompilationUnit) (n : QualifiedName) : CompilationUnit :=
  { cu with package := some n }

def CompilationUnit.add_import (cu : CompilationUnit) (i : ImportDeclaration) : CompilationUnit :=
  { cu with imports := cu.imports ++ [i] }

def CompilationUnit.has_errors (cu : CompilationUnit) : Bool :=
  !cu.errors.isEmpty

/-! ## The parser (`parser/mod.rs`) -/

/-- `Parser::qualified_name`.  The token stream is a `List Token` (`next_if`
consumes the head when it matches, `peek` is `head?`); `acc` holds the
segments pushed so far.  Faithfully to the source: an identifier or an
arithmetic-operator token is consumed first; an arithmetic operator must
resolve to "*" or the rule fails with `expected = ["*"]` and `found` the
token *after* the consumed operator; after a segment, a dot continues the
loop and anything else ends it successfully without being consumed. -/
def qualified_name (src : Source) (acc : List Identifier) :
    List Token → Except Error QualifiedName × List Token
  | Token.ident id :: Token.separator ⟨SepKind.dot, _⟩ :: rest =>
    qualified_name src (acc ++ [⟨id.span⟩]) rest
  | Token.ident id :: rest => (Except.ok ⟨acc ++ [⟨id.span⟩]⟩, rest)
  | Token.operator ⟨OpKind.arithmetic, opSpan⟩ :: rest =>
    if src.resolve_span opSpan = some ['*'] then
      match rest with
      | Token.separator ⟨SepKind.dot, _⟩ :: rest2 =>
        qualified_name src (acc ++ [⟨opSpan⟩]) rest2
      | _ => (Except.ok ⟨acc ++ [⟨opSpan⟩]⟩, rest)
    else
      (Except.error (Error.unexpectedToken rest.head? [['*']]), rest)
  | ts => (Except.error (Error.unexpectedToken ts.head? [ "Ident".toList]), ts)

/-- `Parser::package_declaration`: skip the `package` keyword token — the
caller has peeked it, so `tokens.next().unwrap()` cannot panic — then parse a
qualified name. -/
def package_declaration (src : Source) (ts : List Token) :
    Except Error QualifiedName × List Token :=
  qualified_name src [] ts.tail

/-- `Parser::import_declaration`: skip the (peeked) `import` keyword, consume
an optional `static` keyword, parse a qualified name, and classify by the two
booleans (static present, last segment resolves to "*").  `none` models the
`expect` panics: the one on an empty qualified name is unreachable (a
successful `qualified_name` always pushed at least one segment), but the one
on an unresolvable last-segment span is real — see the `import é;` analysis
under claim C2.  `next_if_static` models the
`tokens.next_if(matches static)` step: it consumes the head token exactly
when it is the `static` keyword, and reports whether it did. -/
def next_if_static : List Token → Bool × List Token
  | Token.keyword k :: rest2 =>
    if k.text = "static".toList then (true, rest2)
    else (false, Token.keyword k :: rest2)
  | ts => (false, ts)

def import_declaration (src : Source) (ts : List Token) :
    Option (Except Error ImportDeclaration × List Token) :=
  match ts with
  | [] => none
  | _ :: rest =>
    match qualified_name src [] (next_if_static rest).2 with
    | (Except.error e, ts2) => some (Except.error e, ts2)
    | (Except.ok name, ts2) =>
      match name.segments.getLast? with
      | none => none
      | some lastSeg =>
        match src.resolve_span lastSeg.span with
        | none => none
        | some txt =>
          some (Except.ok (match (next_if_static rest).1, decide (txt = ['*']) with
            | true, true => ImportDeclaration.staticOnDemand name
            | true, false => ImportDeclaration.staticSingleType name
            | false, true => ImportDeclaration.onDemand name
            | false, false => ImportDeclaration.singleType name), ts2)

/-- Observable of an import declaration: the qualified name it carries. -/
def ImportDeclaration.qualifiedName : ImportDeclaration → QualifiedName
  | .singleType n => n
  | .onDemand n => n
  | .staticSingleType n => n
  | .staticOnDemand n => n

/-- The four-way import classification table of `import_declaration`
(the `match (static_import, is_on_demand)` of the source), as a named
function of the two booleans, for stating claim C3. -/
def importKindOf (isStatic isOnDemand : Bool) (n : QualifiedName) : ImportDeclaration :=
  match isStatic, isOnDemand with
  | true, true => .staticOnDemand n
  | true, false => .staticSingleType n
  | false, true => .onDemand n
  | false, false => .singleType n

/-- Observable of an import token stream: whether a `static` keyword token
directly follows the leading `import` token. -/
def staticFollows (ts : List Token) : Bool :=
  match ts with
  | _ :: Token.keyword k :: _ => decide (k.text = "static".toList)
  | _ => false

/-- Observable of a parsed qualified name: whether its last segment resolves
to "*" through the source. -/
def lastSegmentStar (src : Source) (n : QualifiedName) : Bool :=
  match n.segments.getLast? with
  | some sg => decide (src.resolve_span sg.span = some ['*'])
  | none => false

/-- `Parser::expect_semicolon`: consume the next token when it is a
semicolon, otherwise attach an `UnexpectedToken` diagnostic (`found` is the
peeked token) and leave the stream unchanged. -/
def expect_semicolon (ts : List Token) (cu : CompilationUnit) :
    CompilationUnit × List Token :=
  match ts with
  | Token.separator ⟨SepKind.semicolon, _⟩ :: rest => (cu, rest)
  | _ => (cu.add_error (Error.unexpectedToken ts.head? [[';']]), ts)

/-- One iteration of the top-level loop of `Parser::compilation_unit`, on a
peeked token `t` with remainder `rest`: dispatch on `package`/`import`
keywords (each followed by `expect_semicolon`), or consume the token with the
catch-all `UnexpectedToken` diagnostic.  Returns the updated unit and stream,
or `none` for a panic propagated from `import_declaration`. -/
def compilation_unit_item (src : Source) (t : Token) (rest : List Token)
    (cu : CompilationUnit) : Option (CompilationUnit × List Token) :=
  match t with
  | Token.keyword k =>
    if k.text = "package".toList then
      let r := package_declaration src (t :: rest)
      let cu2 := match r.1 with
        | Except.ok n => cu.set_package n
        | Except.error e => cu.add_error e
      some (expect_semicolon r.2 cu2)
    else if k.text = "import".toList then
      match import_declaration src (t :: rest) with
      | none => none
      | some (r, ts2) =>
        let cu2 := match r with
          | Except.ok d => cu.add_import d
          | Except.error e => cu.add_error e
        some (expect_semicolon ts2 cu2)
    else
      some (cu.add_error (Error.unexpectedToken (some t) [ "<unknown>".toList]), rest)
  | _ =>
    some (cu.add_error (Error.unexpectedToken (some t) [ "<unknown>".toList]), rest)

/-- The top-level loop of `Parser::compilation_unit`, with fuel: each
iteration consumes at least one token (the `package`/`import` keyword, or the
token taken by the catch-all arm), so fuel `ts.length + 1` always suffices
(`compilation_unit_loop_eq_of_le` below).  `none` propagates a panic. -/
def compilation_unit_loop (src : Source) :
    Nat → List Token → CompilationUnit → Option CompilationUnit
  | 0, _, _ => none
  | _ + 1, [], cu => some cu
  | fuel + 1, t :: rest, cu =>
    match compilation_unit_item src t rest cu with
    | none => none
    | some (cu2, ts2) => compilation_unit_loop src fuel ts2 cu2

/-- `Parser::tokens`: the lexer's stream with comment tokens filtered out. -/
def parser_tokens (src : Source) : List Token :=
  (lexTokens src).filter fun t =>
    match t with
    | Token.comment _ => false
    | _ => true

/-- `Parser::compilation_unit` (the loop plus the final `Ok`). -/
def compilation_unit (src : Source) (ts : List Token) :
    Option (Except Error CompilationUnit) :=
  (compilation_unit_loop src (ts.length + 1) ts CompilationUnit.new).map Except.ok

/-- `Parser::parse` for a parser built from raw text
(`Parser::from(&str)` → `Lexer::from` → `Source::from`). -/
def parse (input : List Char) : Option (Except Error CompilationUnit) :=
  (Source.build segmentModel input).bind fun src =>
    compilation_unit src (parser_tokens src)

deriving instance DecidableEq for Except

/-!
## Theorems

The claim theorems are named `cN_...` after the claim ids; everything else
is supporting material.
-/

/-- C5: tokenizing "do" yields exactly one token, `Keyword(Do)` (in the text
model of `Keyword`, the keyword whose text is "do"), spanning the whole
input; tokenizing "double" yields exactly one token, `Keyword(Double)`,
spanning the whole input — never `Do` followed by a remainder identifier —
because "double" stands before its prefix "do" in the `KEYWORDS` table. -/
theorem c5_keyword_longest_match :
    (Source.build segmentModel "do".toList).map lexTokens =
      some [Token.keyword ⟨ "do".toList, ⟨0, ( "do".toList).length⟩⟩] ∧
    (Source.build segmentModel "double".toList).map lexTokens =
      some [Token.keyword ⟨ "double".toList, ⟨0, ( "double".toList).length⟩⟩] := by
  constructor <;> decide

/-- C6: tokenizing "true" yields a boolean `Literal` token and never an
`Ident`, although "true" satisfies the identifier start/part rules — literal
recognition runs before identifier recognition in
`<TokenIterator as Iterator>::next`. -/
theorem c6_boolean_literal_precedence :
    (Source.build segmentModel "true".toList).map lexTokens =
      some [Token.literal ⟨LitKind.boolean, ⟨0, 4⟩⟩] ∧
    ( "true".toList).all is_java_identifier_part = true ∧
    is_java_identifier_start 't' = true := by
  refine ⟨by decide, by decide, by decide⟩

/-- C1: parsing `"package foo.bar.;\n\nimport foo;"` produces a compilation
unit (the `Result` is the success variant) with exactly one diagnostic — an
`UnexpectedToken` whose expected set is `["Ident"]` and whose found token is
the semicolon after `bar.` (grapheme span 16..17) — with no package set, and
with exactly one import, `SingleType` of the one-segment qualified name whose
segment (span 26..29) resolves to "foo". -/
theorem c1_error_recovery_package_then_import :
    parse "package foo.bar.;\n\nimport foo;".toList =
      some (Except.ok
        { errors := [Error.unexpectedToken
            (some (Token.separator ⟨SepKind.semicolon, ⟨16, 17⟩⟩)) [ "Ident".toList]],
          package := none,
          imports := [ImportDeclaration.singleType ⟨[⟨⟨26, 29⟩⟩]⟩],
          types := [] }) ∧
    (Source.build segmentModel "package foo.bar.;\n\nimport foo;".toList).map
      (fun src => src.resolve_span ⟨26, 29⟩) = some (some "foo".toList) := by
  constructor <;> decide

/-- C2 (the failing input): on `"import é;"` the code panics instead of
returning a compilation unit.  The lexer produces the identifier `é`
(grapheme span 7..8), `qualified_name` succeeds, and then
`import_declaration` calls `resolve_span(7..8).expect(..)`: the byte range
it slices is `7..=7`, i.e. bytes `7..8`, and byte 8 falls inside the
two-byte UTF-8 encoding of `é`, so `str::get` returns `None` and the
`expect` panics (modelled as `none`).  This contradicts the claim that
`parse` always returns a `CompilationUnit` for every input text. -/
theorem c2_parse_panics_on_multibyte_import :
    parse "import é;".toList = none ∧
    (Source.build segmentModel "import é;".toList).map
      (fun src => src.resolve_span ⟨7, 8⟩) = some none := by
  constructor <;> decide

/-- C9 (the failing input): constructing a `Source` from `"e\u{0301}"`
(e followed by a combining acute accent) panics instead of succeeding: the
two scalar values form a single grapheme cluster, and
`to_grapheme_indices` maps each cluster through
`char::from_str(..).unwrap()`, which fails on a cluster of two scalar
values.  This contradicts the claim that construction is total for every
input text including combining characters. -/
theorem c9_source_build_panics_on_combining_mark :
    Source.build segmentModel ['e', '\u0301'] = none ∧
    segmentModel ['e', '\u0301'] = [['e', '\u0301']] ∧
    charFromStr ['e', '\u0301'] = none := by
  refine ⟨by decide, by decide, by decide⟩

/-! ### Lexer stream invariants (supporting lemmas for C10) -/

theorem keywords_seg_pos : ∀ kw ∈ KEYWORDS, 1 ≤ (segmentModel kw).length := by decide

theorem separators_seg_pos : ∀ s ∈ SEPARATORS, 1 ≤ (segmentModel s).length := by decide

theorem booleans_seg_pos : ∀ b ∈ BOOLEAN_VALUES, 1 ≤ (segmentModel b).length := by decide

/-- `Separator::try_from_str` on a table entry succeeds and carries the given
span through. -/
theorem sep_tryFromStr_table : ∀ s ∈ SEPARATORS, ∀ sp : Span,
    ∃ k, Separator.tryFromStr s sp = some ⟨k, sp⟩ := by
  intro s hs sp
  fin_cases hs <;> exact ⟨_, rfl⟩

theorem next_keyword_eq {src : Source} {i : Nat} {k : Keyword} {j : Nat}
    (h : next_keyword src i = some (k, j)) :
    k.text ∈ KEYWORDS ∧ j = i + (segmentModel k.text).length ∧ k.span = ⟨i, j⟩ := by
  obtain ⟨kw, hmem, hf⟩ := List.exists_of_findSome?_eq_some h
  split at hf
  · simp only [Option.some.injEq, Prod.mk.injEq] at hf
    obtain ⟨hk, hj⟩ := hf
    subst hk
    subst hj
    exact ⟨hmem, rfl, rfl⟩
  · exact Option.noConfusion hf

theorem next_separator_eq {src : Source} {i : Nat} {sep : Separator} {j : Nat}
    (h : next_separator src i = some (sep, j)) :
    ∃ s ∈ SEPARATORS, j = i + (segmentModel s).length ∧ sep.span = ⟨i, j⟩ := by
  obtain ⟨s, hmem, hf⟩ := List.exists_of_findSome?_eq_some h
  split at hf
  · obtain ⟨k, hk⟩ := sep_tryFromStr_table s hmem ⟨i, i + (segmentModel s).length⟩
    rw [hk] at hf
    simp only [Option.map_some', Option.some.injEq, Prod.mk.injEq] at hf
    obtain ⟨hsep, hj⟩ := hf
    subst hj
    exact ⟨s, hmem, rfl, by rw [← hsep]⟩
  · exact Option.noConfusion hf

theorem next_boolean_eq {src : Source} {i : Nat} {l : Literal} {j : Nat}
    (h : next_boolean_literal src i = some (l, j)) :
    ∃ b ∈ BOOLEAN_VALUES, j = i + (segmentModel b).length ∧ l = ⟨.boolean, ⟨i, j⟩⟩ := by
  obtain ⟨b, hmem, hf⟩ := List.exists_of_findSome?_eq_some h
  split at hf
  · simp only [Option.some.injEq, Prod.mk.injEq] at hf
    obtain ⟨hl, hj⟩ := hf
    subst hj
    exact ⟨b, hmem, rfl, hl.symm⟩
  · exact Option.noConfusion hf

theorem next_string_literal_eq {src : Source} {i : Nat} {l : Literal} {j : Nat}
    (h : next_string_literal src i = some (l, j)) :
    l.span.start = i ∧ i < l.span.stop ∧ l.span.stop ≤ j := by
  simp only [next_string_literal] at h
  split at h
  · split at h <;>
      (simp only [Option.some.injEq, Prod.mk.injEq] at h
       obtain ⟨hl, hj⟩ := h
       subst hj
       rw [← hl]
       refine ⟨rfl, ?_, ?_⟩ <;> simp <;> omega)
  · exact Option.noConfusion h

theorem next_literal_eq {src : Source} {i : Nat} {l : Literal} {j : Nat}
    (h : next_literal src i = some (l, j)) :
    l.span.start = i ∧ l.span.start < l.span.stop ∧ l.span.stop ≤ j ∧ i < j := by
  unfold next_literal at h
  split at h
  case _ r heq =>
    simp only [Option.some.injEq] at h
    subst h
    obtain ⟨h1, h2, h3⟩ := next_string_literal_eq heq
    exact ⟨h1, by omega, h3, by omega⟩
  case _ heq =>
    obtain ⟨b, hmem, hj, hl⟩ := next_boolean_eq h
    have := booleans_seg_pos b hmem
    subst hl
    exact ⟨rfl, by simp; omega, by simp, by omega⟩

theorem count_pos {src : Source} {i : Nat} {c : Char} {f : Char → Bool}
    (hc : src.char_at i = some c) (hf : f c = true) :
    1 ≤ count_consecutive_matches src i f := by
  unfold Source.char_at at hc
  simp only [Option.map_eq_some'] at hc
  obtain ⟨p, hp, hpc⟩ := hc
  obtain ⟨hlt, hget⟩ := List.get?_eq_some.mp hp
  unfold count_consecutive_matches
  rw [List.drop_eq_getElem_cons hlt, List.takeWhile_cons]
  rw [List.get_eq_getElem] at hget
  rw [hget, hpc, hf]
  simp

theorem start_part {c : Char} (h : is_java_identifier_start c = true) :
    is_java_identifier_part c = true := by
  unfold is_java_identifier_part
  rw [h]
  rfl

theorem next_identifier_eq {src : Source} {i : Nat} {id : Ident} {j : Nat}
    (h : next_identifier src i = some (id, j)) :
    id.span = ⟨i, j⟩ ∧ i < j := by
  unfold next_identifier at h
  split at h
  · exact Option.noConfusion h
  case _ c hc =>
    split at h
    case isTrue hstart =>
      simp only [Option.some.injEq, Prod.mk.injEq] at h
      obtain ⟨hid, hj⟩ := h
      have hcount := count_pos hc (start_part hstart)
      subst hj
      exact ⟨by rw [← hid], by omega⟩
    case isFalse => exact Option.noConfusion h

theorem skip_whitespace_le (src : Source) (i : Nat) : i ≤ skip_whitespace src i :=
  Nat.le_add_right i _

/-- Each produced token advances the cursor strictly, its span is non-empty,
and the span lies between the old and the new cursor: the core progress
invariant of the token iterator. -/
theorem lexNext_progress {src : Source} {i : Nat} {t : Token} {j : Nat}
    (h : lexNext src i = some (t, j)) :
    i < src.graphemes.length ∧ i < j ∧ i ≤ t.span.start ∧
      t.span.start < t.span.stop ∧ t.span.stop ≤ j := by
  have hle : i ≤ skip_whitespace src i := skip_whitespace_le src i
  simp only [lexNext] at h
  split at h
  · exact Option.noConfusion h
  case isFalse hguard =>
    have hlt : skip_whitespace src i < src.graphemes.length := by omega
    split at h
    case _ k j2 heq =>
      obtain ⟨hmem, hj2, hspan⟩ := next_keyword_eq heq
      have hkw := keywords_seg_pos _ hmem
      simp only [Option.some.injEq, Prod.mk.injEq] at h
      obtain ⟨ht, hj⟩ := h
      subst ht
      subst hj
      simp only [Token.span, hspan]
      omega
    case _ hkwnone =>
      split at h
      case _ sep j2 heq =>
        obtain ⟨s, hmem, hj2, hspan⟩ := next_separator_eq heq
        have hsep := separators_seg_pos _ hmem
        simp only [Option.some.injEq, Prod.mk.injEq] at h
        obtain ⟨ht, hj⟩ := h
        subst ht
        subst hj
        simp only [Token.span, hspan]
        omega
      case _ hsepnone =>
        split at h
        case _ l j2 heq =>
          obtain ⟨h1, h2, h3, h4⟩ := next_literal_eq heq
          simp only [Option.some.injEq, Prod.mk.injEq] at h
          obtain ⟨ht, hj⟩ := h
          subst ht
          subst hj
          simp only [Token.span]
          omega
        case _ hlitnone =>
          split at h
          case _ id j2 heq =>
            obtain ⟨hspan, hij⟩ := next_identifier_eq heq
            simp only [Option.some.injEq, Prod.mk.injEq] at h
            obtain ⟨ht, hj⟩ := h
            subst ht
            subst hj
            simp only [Token.span, hspan]
            omega
          case _ => exact Option.noConfusion h

/-- Past the end of the grapheme table, the iterator produces nothing. -/
theorem lexNext_none_of_le {src : Source} {i : Nat}
    (h : src.graphemes.length ≤ i) : lexNext src i = none := by
  simp only [lexNext]
  rw [if_pos (le_trans h (skip_whitespace_le src i))]

/-- Fuel irrelevance for the token stream: any fuel of at least
`graphemes.length + 1 - i` yields the same token list, i.e. the iterator
really is exhausted within that many steps. -/
theorem tokensFuel_eq_of_le (src : Source) :
    ∀ fuel fuel' i : Nat, src.graphemes.length + 1 - i ≤ fuel →
      src.graphemes.length + 1 - i ≤ fuel' →
      tokensFuel src fuel i = tokensFuel src fuel' i := by
  intro fuel
  induction fuel with
  | zero =>
    intro fuel' i h h'
    have hi : src.graphemes.length ≤ i := by omega
    cases fuel' with
    | zero => rfl
    | succ fuel' => simp [tokensFuel, lexNext_none_of_le hi]
  | succ fuel ih =>
    intro fuel' i h h'
    cases fuel' with
    | zero =>
      have hi : src.graphemes.length ≤ i := by omega
      simp [tokensFuel, lexNext_none_of_le hi]
    | succ fuel' =>
      simp only [tokensFuel]
      cases heq : lexNext src i with
      | none => rfl
      | some tj =>
        obtain ⟨t, j⟩ := tj
        obtain ⟨hlen, hij, -, -, -⟩ := lexNext_progress heq
        show t :: tokensFuel src fuel j = t :: tokensFuel src fuel' j
        rw [ih fuel' j (by omega) (by omega)]

/-- The span and ordering invariant, by induction over the fuel: every token
produced from cursor `i` has a non-empty span starting at or after `i`, and
consecutive spans never overlap. -/
theorem tokensFuel_inv (src : Source) :
    ∀ fuel i : Nat,
      (∀ t ∈ tokensFuel src fuel i, i ≤ t.span.start ∧ t.span.start < t.span.stop) ∧
      List.Chain' (fun a b => a.span.stop ≤ b.span.start) (tokensFuel src fuel i) := by
  intro fuel
  induction fuel with
  | zero => intro i; simp [tokensFuel]
  | succ fuel ih =>
    intro i
    simp only [tokensFuel]
    cases heq : lexNext src i with
    | none => simp
    | some tj =>
      obtain ⟨t, j⟩ := tj
      obtain ⟨hlen, hij, h1, h2, h3⟩ := lexNext_progress heq
      obtain ⟨ihmem, ihchain⟩ := ih j
      dsimp only
      constructor
      · intro t' ht'
        rcases List.mem_cons.mp ht' with h | h
        · subst h
          exact ⟨h1, h2⟩
        · obtain ⟨hj, hs⟩ := ihmem t' h
          exact ⟨by omega, hs⟩
      · rw [List.chain'_cons']
        refine ⟨?_, ihchain⟩
        intro y hy
        have hmem : y ∈ tokensFuel src fuel j := List.mem_of_mem_head? hy
        obtain ⟨hj, -⟩ := ihmem y hmem
        omega

/-- C10: for every source, the token sequence of the lexer's iterator is
finite — unfolding `TokenIterator::next` with any fuel of at least
`graphemes.length + 1` steps yields the same, complete list — every produced
token's span has `start < stop`, and consecutive tokens' spans never overlap
and never move backwards (`stop` of the earlier ≤ `start` of the later). -/
theorem c10_lexer_span_invariants (src : Source) :
    (∀ fuel, src.graphemes.length + 1 ≤ fuel → tokensFuel src fuel 0 = lexTokens src) ∧
    (∀ t ∈ lexTokens src, t.span.start < t.span.stop) ∧
    List.Chain' (fun a b => a.span.stop ≤ b.span.start) (lexTokens src) := by
  refine ⟨fun fuel hf => tokensFuel_eq_of_le src fuel (src.graphemes.length + 1) 0
    (by omega) (by omega), fun t ht => ((tokensFuel_inv src _ 0).1 t ht).2,
    (tokensFuel_inv src _ 0).2⟩

/-! ### Qualified-name consumption (supporting lemma and claim C4) -/

theorem qualified_name_spec (src : Source) (acc : List Identifier) (ts : List Token) :
    (∀ name ts', qualified_name src acc ts = (Except.ok name, ts') →
      ∃ n, 1 ≤ n ∧ name.segments.length = acc.length + n ∧ ts' = ts.drop (2 * n - 1)) ∧
    (∀ e ts', qualified_name src acc ts = (Except.error e, ts') →
      (∃ k, ts' = ts.drop k) ∧ Error.found e = ts'.head?) := by
  induction acc, ts using qualified_name.induct src with
  | case1 acc id span rest ih =>
    rw [qualified_name.eq_1]
    obtain ⟨ihok, iherr⟩ := ih
    constructor
    · intro name ts' h
      obtain ⟨n, hn1, hlen, hts⟩ := ihok name ts' h
      refine ⟨n + 1, by omega, ?_, ?_⟩
      · simp only [List.length_append, List.length_cons, List.length_nil] at hlen ⊢
        omega
      · have h2 : 2 * (n + 1) - 1 = (2 * n - 1) + 1 + 1 := by omega
        rw [h2, List.drop_succ_cons, List.drop_succ_cons]
        exact hts
    · intro e ts' h
      obtain ⟨⟨k, hk⟩, hfound⟩ := iherr e ts' h
      refine ⟨⟨k + 1 + 1, ?_⟩, hfound⟩
      rw [List.drop_succ_cons, List.drop_succ_cons]
      exact hk
  | case2 acc id rest hno =>
    rw [qualified_name.eq_2 src acc id rest hno]
    constructor
    · intro name ts' h
      simp only [Prod.mk.injEq, Except.ok.injEq] at h
      obtain ⟨hname, hts⟩ := h
      refine ⟨1, le_refl 1, ?_, ?_⟩
      · rw [← hname]; simp
      · rw [← hts]; rfl
    · intro e ts' h
      simp only [Prod.mk.injEq] at h
      exact absurd h.1 (by simp)
  | case3 acc opSpan hstar span rest2 ih =>
    rw [qualified_name.eq_3, if_pos hstar]
    obtain ⟨ihok, iherr⟩ := ih
    constructor
    · intro name ts' h
      obtain ⟨n, hn1, hlen, hts⟩ := ihok name ts' h
      refine ⟨n + 1, by omega, ?_, ?_⟩
      · simp only [List.length_append, List.length_cons, List.length_nil] at hlen ⊢
        omega
      · have h2 : 2 * (n + 1) - 1 = (2 * n - 1) + 1 + 1 := by omega
        rw [h2, List.drop_succ_cons, List.drop_succ_cons]
        exact hts
    · intro e ts' h
      obtain ⟨⟨k, hk⟩, hfound⟩ := iherr e ts' h
      refine ⟨⟨k + 1 + 1, ?_⟩, hfound⟩
      rw [List.drop_succ_cons, List.drop_succ_cons]
      exact hk
  | case4 acc opSpan rest hstar hno =>
    rw [qualified_name.eq_4 src acc opSpan rest hno, if_pos hstar]
    constructor
    · intro name ts' h
      simp only [Prod.mk.injEq, Except.ok.injEq] at h
      obtain ⟨hname, hts⟩ := h
      refine ⟨1, le_refl 1, ?_, ?_⟩
      · rw [← hname]; simp
      · rw [← hts]; rfl
    · intro e ts' h
      simp only [Prod.mk.injEq] at h
      exact absurd h.1 (by simp)
  | case5 acc opSpan rest hnstar =>
    have hred : qualified_name src acc
        (Token.operator { kind := OpKind.arithmetic, span := opSpan } :: rest) =
        (Except.error (Error.unexpectedToken rest.head? [['*']]), rest) := by
      rcases rest with - | ⟨t, rest1⟩
      · rw [qualified_name.eq_4 src acc opSpan [] (by intro _ _ h; cases h), if_neg hnstar]
      · by_cases ht : ∃ sp, t = Token.separator { kind := SepKind.dot, span := sp }
        · obtain ⟨sp, rfl⟩ := ht
          rw [qualified_name.eq_3, if_neg hnstar]
        · refine (qualified_name.eq_4 src acc opSpan (t :: rest1) ?_).trans (if_neg hnstar)
          intro sp r2 h
          injection h with h1 h2
          exact ht ⟨sp, h1⟩
    rw [hred]
    constructor
    · intro name ts' h
      simp only [Prod.mk.injEq] at h
      exact absurd h.1 (by simp)
    · intro e ts' h
      simp only [Prod.mk.injEq, Except.error.injEq] at h
      obtain ⟨he, hts⟩ := h
      refine ⟨⟨1, by rw [← hts]; rfl⟩, ?_⟩
      rw [← he, ← hts]
      rfl
  | case6 acc ts h1 h2 h3 =>
    rw [qualified_name.eq_5 src acc ts h1 h2 h3]
    constructor
    · intro name ts' h
      simp only [Prod.mk.injEq] at h
      exact absurd h.1 (by simp)
    · intro e ts' h
      simp only [Prod.mk.injEq, Except.error.injEq] at h
      obtain ⟨he, hts⟩ := h
      refine ⟨⟨0, by rw [← hts]; rfl⟩, ?_⟩
      rw [← he, ← hts]
      rfl


/-- C4 (amended): `qualified_name` on success consumes exactly the
`2·n − 1` tokens of the name it recognizes (`n` segments interleaved with
`n − 1` dots) and leaves the next token unconsumed; on failure the returned
stream is a suffix of the input and the diagnostic's `found` token is the
head of that returned stream.  (The original claim further asserted that on
failure the *offending* token is never consumed; the arithmetic-operator
branch refutes that — see the counterexample — because `next_if` has already
consumed the operator when the `resolve_span(..) == "*"` test fails, so the
diagnostic reports the token *after* the operator.) -/
theorem c4_qualified_name_consumption (src : Source) (ts : List Token) :
    (∀ name ts', qualified_name src [] ts = (Except.ok name, ts') →
      1 ≤ name.segments.length ∧ ts' = ts.drop (2 * name.segments.length - 1)) ∧
    (∀ e ts', qualified_name src [] ts = (Except.error e, ts') →
      (∃ k, ts' = ts.drop k) ∧ Error.found e = ts'.head?) := by
  obtain ⟨hok, herr⟩ := qualified_name_spec src [] ts
  refine ⟨fun name ts' h => ?_, herr⟩
  obtain ⟨n, hn1, hlen, hts⟩ := hok name ts' h
  simp only [List.length_nil, Nat.zero_add] at hlen
  refine ⟨by omega, ?_⟩
  rw [hlen]
  exact hts

/-- C4 (counterexample): on the token stream of `"a.+;"` — identifier `a`,
dot, arithmetic operator resolving to "+", semicolon — `qualified_name`
fails, but the offending operator token *is* consumed (the returned stream is
only the semicolon) and the diagnostic reports the semicolon after it, not
the peeked operator.  The claim, as stated for every token stream, would
require the returned stream to still start with the offending operator and
the diagnostic to report that operator. -/
theorem c4_counterexample_consumed_operator :
    qualified_name ⟨ "a.+;".toList, [(0, 'a'), (1, '.'), (2, '+'), (3, ';')]⟩ []
      [Token.ident ⟨⟨0, 1⟩⟩, Token.separator ⟨SepKind.dot, ⟨1, 2⟩⟩,
       Token.operator ⟨OpKind.arithmetic, ⟨2, 3⟩⟩,
       Token.separator ⟨SepKind.semicolon, ⟨3, 4⟩⟩] =
      (Except.error (Error.unexpectedToken
        (some (Token.separator ⟨SepKind.semicolon, ⟨3, 4⟩⟩)) [['*']]),
       [Token.separator ⟨SepKind.semicolon, ⟨3, 4⟩⟩]) ∧
    qualified_name ⟨ "a.+;".toList, [(0, 'a'), (1, '.'), (2, '+'), (3, ';')]⟩ []
      [Token.ident ⟨⟨0, 1⟩⟩, Token.separator ⟨SepKind.dot, ⟨1, 2⟩⟩,
       Token.operator ⟨OpKind.arithmetic, ⟨2, 3⟩⟩,
       Token.separator ⟨SepKind.semicolon, ⟨3, 4⟩⟩] ≠
      (Except.error (Error.unexpectedToken
        (some (Token.operator ⟨OpKind.arithmetic, ⟨2, 3⟩⟩)) [['*']]),
       [Token.operator ⟨OpKind.arithmetic, ⟨2, 3⟩⟩,
        Token.separator ⟨SepKind.semicolon, ⟨3, 4⟩⟩]) := by
  constructor <;> decide

/-- C4 (witness): the spec's own example — parsing a qualified name out of
the token stream of `"a.b.c;"` returns the three segments and leaves the
semicolon as the next unconsumed token (`drop 5` of the six tokens). -/
theorem c4_qualified_name_consumption_witness :
    1 ≤ (⟨[⟨⟨0, 1⟩⟩, ⟨⟨2, 3⟩⟩, ⟨⟨4, 5⟩⟩]⟩ : QualifiedName).segments.length ∧
    [Token.separator ⟨SepKind.semicolon, ⟨5, 6⟩⟩] =
      ([Token.ident ⟨⟨0, 1⟩⟩, Token.separator ⟨SepKind.dot, ⟨1, 2⟩⟩,
        Token.ident ⟨⟨2, 3⟩⟩, Token.separator ⟨SepKind.dot, ⟨3, 4⟩⟩,
        Token.ident ⟨⟨4, 5⟩⟩,
        Token.separator ⟨SepKind.semicolon, ⟨5, 6⟩⟩]).drop
        (2 * (⟨[⟨⟨0, 1⟩⟩, ⟨⟨2, 3⟩⟩, ⟨⟨4, 5⟩⟩]⟩ : QualifiedName).segments.length - 1) :=
  (c4_qualified_name_consumption
    ⟨ "a.b.c;".toList, [(0, 'a'), (1, '.'), (2, 'b'), (3, '.'), (4, 'c'), (5, ';')]⟩
    [Token.ident ⟨⟨0, 1⟩⟩, Token.separator ⟨SepKind.dot, ⟨1, 2⟩⟩,
     Token.ident ⟨⟨2, 3⟩⟩, Token.separator ⟨SepKind.dot, ⟨3, 4⟩⟩,
     Token.ident ⟨⟨4, 5⟩⟩, Token.separator ⟨SepKind.semicolon, ⟨5, 6⟩⟩]).1
    ⟨[⟨⟨0, 1⟩⟩, ⟨⟨2, 3⟩⟩, ⟨⟨4, 5⟩⟩]⟩
    [Token.separator ⟨SepKind.semicolon, ⟨5, 6⟩⟩] (by decide)

/-! ### Import classification (claim C3) -/

theorem staticFollows_eq (t : Token) (rest : List Token) :
    staticFollows (t :: rest) = (next_if_static rest).1 := by
  cases rest with
  | nil => rfl
  | cons t2 r2 =>
    cases t2 <;> simp only [staticFollows, next_if_static]
    case keyword k =>
      by_cases hk : k.text = "static".toList
      · rw [if_pos hk]
        simp [hk]
      · rw [if_neg hk]
        simpa using hk

/-- C3: whenever `import_declaration` succeeds, the kind of the produced
declaration is exactly `importKindOf` applied to the two booleans the claim
names: whether a `static` keyword followed the `import` keyword in the input
stream, and whether the produced qualified name's last segment resolves to
"*"; and the four kinds are mutually exclusive and exhaustive — for a fixed
name, `importKindOf` is injective in the boolean pair (and by construction it
is onto the four constructors). -/
theorem c3_import_classification (src : Source) (ts : List Token) :
    (∀ d ts', import_declaration src ts = some (Except.ok d, ts') →
      d = importKindOf (staticFollows ts)
        (lastSegmentStar src d.qualifiedName) d.qualifiedName) ∧
    (∀ (n : QualifiedName) (b1 b2 b1' b2' : Bool),
      importKindOf b1 b2 n = importKindOf b1' b2' n → b1 = b1' ∧ b2 = b2') := by
  constructor
  · intro d ts' h
    match ts with
    | [] => exact Option.noConfusion h
    | t :: rest =>
      simp only [import_declaration] at h
      split at h
      case _ e ts2 heq => simp at h
      case _ name ts2 heq =>
        split at h
        · exact Option.noConfusion h
        case _ lastSeg hlast =>
          split at h
          · exact Option.noConfusion h
          case _ txt hres =>
            have hstar : lastSegmentStar src name = decide (txt = ['*']) := by
              simp [lastSegmentStar, hlast, hres]
            cases hb1 : (next_if_static rest).1 <;> cases hb2 : (decide (txt = ['*'])) <;>
              (rw [hb1, hb2] at h
               dsimp only at h
               simp only [Option.some.injEq, Prod.mk.injEq, Except.ok.injEq] at h
               obtain ⟨hd, -⟩ := h
               rw [← hd, staticFollows_eq, hb1]
               simp [importKindOf, ImportDeclaration.qualifiedName, hstar, hb2])
  · intro n b1 b2 b1' b2' h
    cases b1 <;> cases b2 <;> cases b1' <;> cases b2' <;> simp_all [importKindOf]

/-- C3 (witness): on the token stream of `"import foo"` over the source
`"foo"`, `import_declaration` produces `SingleType`, which equals the
classification by the two booleans (no `static`, last segment resolves to
"foo" ≠ "*"). -/
theorem c3_import_classification_witness :
    ImportDeclaration.singleType ⟨[⟨⟨0, 3⟩⟩]⟩ =
      importKindOf
        (staticFollows [Token.keyword ⟨ "import".toList, ⟨0, 6⟩⟩, Token.ident ⟨⟨0, 3⟩⟩])
        (lastSegmentStar ⟨ "foo".toList, [(0, 'f'), (1, 'o'), (2, 'o')]⟩
          (ImportDeclaration.singleType ⟨[⟨⟨0, 3⟩⟩]⟩).qualifiedName)
        (ImportDeclaration.singleType ⟨[⟨⟨0, 3⟩⟩]⟩).qualifiedName :=
  (c3_import_classification ⟨ "foo".toList, [(0, 'f'), (1, 'o'), (2, 'o')]⟩
    [Token.keyword ⟨ "import".toList, ⟨0, 6⟩⟩, Token.ident ⟨⟨0, 3⟩⟩]).1
    (ImportDeclaration.singleType ⟨[⟨⟨0, 3⟩⟩]⟩) [] (by decide)

/-! ### `Source::matches` (claim C7) -/

theorem singleton_of_length_one {g : List Char} (h : g.length = 1) : ∃ c, g = [c] := by
  rcases g with - | ⟨c, - | ⟨c2, g'⟩⟩
  · simp at h
  · exact ⟨c, rfl⟩
  · simp at h

theorem matchesAux_singles : ∀ (gs : List (List Char)) (cs : List Char),
    (∀ g ∈ gs, g.length = 1) →
    matchesAux cs gs = some (gs.flatten.isPrefixOf cs) := by
  intro gs
  induction gs with
  | nil => intro cs _; cases cs <;> simp [matchesAux, List.isPrefixOf]
  | cons g gs ih =>
    intro cs hs
    obtain ⟨c, rfl⟩ := singleton_of_length_one (hs g (List.mem_cons_self g gs))
    have hs' : ∀ g ∈ gs, g.length = 1 := fun g hg => hs g (List.mem_cons_of_mem _ hg)
    cases cs with
    | nil => simp [matchesAux, charFromStr, List.isPrefixOf]
    | cons c' cs' =>
      simp only [matchesAux, charFromStr, Option.some_bind]
      by_cases hcc : c = c'
      · subst hcc
        rw [if_pos rfl, ih cs' hs']
        simp [List.isPrefixOf_cons₂_self]
      · rw [if_neg hcc]
        simp only [List.flatten_cons, List.singleton_append]
        rw [List.isPrefixOf_cons₂]
        have : (c == c') = false := by simpa using hcc
        rw [this]
        simp

/-- C7 (amended): for every `Source`, every offset and every probe string all
of whose grapheme clusters are single scalar values — as every
keyword/separator/boolean table entry is — `matches` returns `true` exactly
when the source's grapheme (= character, in any constructible source)
sequence starting at the offset begins with the probe's grapheme sequence: in
particular it returns `true` on exact consumption of the probe even though
source graphemes remain, and `false` when the source ends first.  (The
original claim quantified over *every* non-empty string; a probe with a
multi-scalar cluster makes the code panic instead — see the
counterexample — which forces the single-scalar restriction.  The offset
needs no in-bounds restriction: past the end the source sequence is empty and
a non-empty probe is no prefix of it.) -/
theorem c7_matches_iff_prefix (src : Source) (offset : Nat) (probe : List (List Char))
    (hs : ∀ g ∈ probe, g.length = 1) :
    src.matches offset probe =
      some (probe.flatten.isPrefixOf ((src.graphemes.drop offset).map Prod.snd)) :=
  matchesAux_singles probe _ hs

/-- C7 (witness): over the source `"abc"` at offset 1, the probe `"bc"`
matches. -/
theorem c7_matches_iff_prefix_witness :
    Source.matches ⟨['a', 'b', 'c'], [(0, 'a'), (1, 'b'), (2, 'c')]⟩ 1 [['b'], ['c']] =
      some (([['b'], ['c']].flatten).isPrefixOf
        ((([(0, 'a'), (1, 'b'), (2, 'c')] : List (Nat × Char)).drop 1).map Prod.snd)) :=
  c7_matches_iff_prefix ⟨['a', 'b', 'c'], [(0, 'a'), (1, 'b'), (2, 'c')]⟩ 1 [['b'], ['c']]
    (by decide)

/-- C7 (counterexample): over the source `"x"` with the probe
`"e\u{0301}"` — one grapheme cluster of two scalar values, a non-empty
string — the claim requires `matches` to return `false` (the probe's
grapheme sequence is not a prefix of the source's), but the code pulls the
cluster through `char::from_str(..).unwrap()` and panics (modelled `none`)
before any comparison. -/
theorem c7_counterexample_multiscalar_cluster :
    Source.matches ⟨['x'], [(0, 'x')]⟩ 0 [['e', '\u0301']] = none ∧
    Source.matches ⟨['x'], [(0, 'x')]⟩ 0 [['e', '\u0301']] ≠ some false ∧
    (['e', '\u0301'].isPrefixOf ['x']) = false := by
  refine ⟨by decide, by decide, by decide⟩

/-! ### `Source::resolve_span` byte arithmetic (claim C8) -/

theorem utf8Len_append (l1 l2 : List Char) : utf8Len (l1 ++ l2) = utf8Len l1 + utf8Len l2 := by
  simp [utf8Len]

theorem length_le_utf8Len (l : List Char) : l.length ≤ utf8Len l := by
  induction l with
  | nil => simp [utf8Len]
  | cons c rest ih =>
    have := Char.utf8Size_pos c
    simp only [utf8Len, List.map_cons, List.sum_cons, List.length_cons]
    simp only [utf8Len] at ih
    omega

theorem canonicalTable_get? (input : List Char) : ∀ (off k : Nat),
    (canonicalTable input off).get? k =
      (input.get? k).map (fun c => (off + utf8Len (input.take k), c)) := by
  induction input with
  | nil => intro off k; simp [canonicalTable]
  | cons c rest ih =>
    intro off k
    cases k with
    | zero => simp [canonicalTable, utf8Len]
    | succ k =>
      simp only [canonicalTable, List.get?_cons_succ, List.get?_cons_succ]
      rw [ih (off + c.utf8Size) k]
      cases hget : rest.get? k with
      | none => simp
      | some c' =>
        simp only [Option.map_some', Option.some.injEq, Prod.mk.injEq, List.take_succ_cons]
        refine ⟨?_, trivial⟩
        simp only [utf8Len, List.map_cons, List.sum_cons]
        omega

theorem takeBytes_zero (l : List Char) : takeBytes l 0 = some [] := by
  cases l <;> rfl

theorem takeBytes_cons_pos (c : Char) (rest : List Char) (n : Nat) (hn : 1 ≤ n) :
    takeBytes (c :: rest) n =
      if c.utf8Size ≤ n then (takeBytes rest (n - c.utf8Size)).map (c :: ·) else none := by
  obtain ⟨m, rfl⟩ : ∃ m, n = m + 1 := ⟨n - 1, by omega⟩
  rfl

theorem dropBytes_cons_pos (c : Char) (rest : List Char) (n : Nat) (hn : 1 ≤ n) :
    dropBytes (c :: rest) n =
      if c.utf8Size ≤ n then dropBytes rest (n - c.utf8Size) else none := by
  obtain ⟨m, rfl⟩ : ∃ m, n = m + 1 := ⟨n - 1, by omega⟩
  rfl

theorem dropBytes_utf8Len_append (l1 l2 : List Char) :
    dropBytes (l1 ++ l2) (utf8Len l1) = some l2 := by
  induction l1 with
  | nil =>
    show dropBytes l2 (utf8Len []) = some l2
    have : utf8Len [] = 0 := rfl
    rw [this]
    cases l2 <;> rfl
  | cons c l1' ih =>
    have hsz := Char.utf8Size_pos c
    have hc : utf8Len (c :: l1') = c.utf8Size + utf8Len l1' := by simp [utf8Len]
    rw [List.cons_append, dropBytes_cons_pos c _ _ (by omega), if_pos (by omega), hc]
    have : c.utf8Size + utf8Len l1' - c.utf8Size = utf8Len l1' := by omega
    rw [this, ih]

theorem takeBytes_take_succ (l : List Char) : ∀ (k : Nat) (c : Char), l.get? k = some c →
    takeBytes l (utf8Len (l.take k) + 1) =
      if c.utf8Size = 1 then some (l.take (k + 1)) else none := by
  induction l with
  | nil => intro k c h; simp at h
  | cons a rest ih =>
    intro k c h
    cases k with
    | zero =>
      simp only [List.get?_cons_zero, Option.some.injEq] at h
      subst h
      have hz : utf8Len ((a :: rest).take 0) + 1 = 1 := rfl
      rw [hz, takeBytes_cons_pos _ _ 1 (le_refl 1)]
      have hsz := Char.utf8Size_pos a
      by_cases h1 : a.utf8Size = 1
      · rw [if_pos (by omega), h1]
        simp [takeBytes_zero]
      · rw [if_neg (by omega), if_neg h1]
    | succ k =>
      simp only [List.get?_cons_succ] at h
      have hsz := Char.utf8Size_pos a
      have harith : utf8Len ((a :: rest).take (k + 1)) + 1 =
          a.utf8Size + (utf8Len (rest.take k) + 1) := by
        simp [List.take_succ_cons, utf8Len]
        omega
      rw [harith, takeBytes_cons_pos _ _ _ (by omega), if_pos (by omega)]
      have hsub : a.utf8Size + (utf8Len (rest.take k) + 1) - a.utf8Size =
          utf8Len (rest.take k) + 1 := by omega
      rw [hsub, ih k c h]
      by_cases h1 : c.utf8Size = 1 <;> simp [h1, List.take_succ_cons]

theorem utf8Len_take_gap (l : List Char) (k k' : Nat) (hk : k ≤ k') (hk' : k' ≤ l.length) :
    utf8Len (l.take k) + (k' - k) ≤ utf8Len (l.take k') := by
  have hsplit : l.take k' = l.take k ++ ((l.drop k).take (k' - k)) := by
    have : k' = k + (k' - k) := by omega
    rw [this, List.take_add]
    congr 2
    omega
  rw [hsplit, utf8Len_append]
  have hlen : ((l.drop k).take (k' - k)).length = k' - k := by
    simp only [List.length_take, List.length_drop]
    omega
  have := length_le_utf8Len ((l.drop k).take (k' - k))
  omega

theorem utf8Len_take_succ (l : List Char) (k : Nat) (c : Char) (h : l.get? k = some c) :
    utf8Len (l.take (k + 1)) = utf8Len (l.take k) + c.utf8Size := by
  rw [List.take_succ]
  rw [← List.get?_eq_getElem?, h]
  simp [utf8Len_append, utf8Len]


/-- `to_grapheme_indices` produces exactly the canonical table whenever the
segmentation yields single-character clusters. -/
theorem clusterTable_singletons : ∀ (l : List Char) (off : Nat),
    clusterTable (l.map (fun c => [c])) off = some (canonicalTable l off) := by
  intro l
  induction l with
  | nil => intro off; rfl
  | cons c rest ih =>
    intro off
    simp only [List.map_cons, clusterTable, charFromStr, Option.some_bind]
    rw [show utf8Len [c] = c.utf8Size from by simp [utf8Len]]
    rw [ih (off + c.utf8Size)]
    rfl

theorem build_singleton_clusters (seg : List Char → List (List Char)) (input : List Char)
    (hseg : seg input = input.map (fun c => [c])) :
    Source.build seg input = some ⟨input, canonicalTable input 0⟩ := by
  unfold Source.build
  rw [hseg, clusterTable_singletons]
  rfl

theorem translate_index_canonical (input : List Char) (k : Nat) :
    (Source.mk input (canonicalTable input 0)).translate_index k =
      (input.get? k).map (fun _ => utf8Len (input.take k)) := by
  show ((canonicalTable input 0).get? k).map Prod.fst = _
  rw [canonicalTable_get? input 0 k]
  cases input.get? k <;> simp

theorem resolve_canonical_red (input : List Char) (s e : Nat)
    (he : 1 ≤ e) (hs : s < input.length) (hen : e - 1 < input.length) :
    (Source.mk input (canonicalTable input 0)).resolve_span ⟨s, e⟩ =
      strGet input (utf8Len (input.take s)) (utf8Len (input.take (e - 1)) + 1) := by
  unfold Source.resolve_span Source.translate_indices
  dsimp only
  rw [if_neg (by omega)]
  rw [translate_index_canonical, translate_index_canonical]
  cases hq : input.get? s with
  | none =>
    rw [List.get?_eq_none] at hq
    omega
  | some cs =>
    cases hq' : input.get? (e - 1) with
    | none =>
      rw [List.get?_eq_none] at hq'
      omega
    | some ce => simp

theorem resolve_canonical_lt (input : List Char) (s e : Nat) (ce : Char)
    (hlt : s < e) (hen : e ≤ input.length) (hce : input.get? (e - 1) = some ce) :
    (Source.mk input (canonicalTable input 0)).resolve_span ⟨s, e⟩ =
      if ce.utf8Size = 1 then some ((input.take e).drop s) else none := by
  have hs : s < input.length := by omega
  have hen1 : e - 1 < input.length := by omega
  rw [resolve_canonical_red input s e (by omega) hs hen1]
  unfold strGet
  have hgap : utf8Len (input.take s) ≤ utf8Len (input.take (e - 1)) := by
    have := utf8Len_take_gap input s (e - 1) (by omega) (by omega)
    omega
  rw [if_pos (by omega)]
  have hdrop : dropBytes input (utf8Len (input.take s)) = some (input.drop s) := by
    have := dropBytes_utf8Len_append (input.take s) (input.drop s)
    rwa [List.take_append_drop] at this
  rw [hdrop]
  simp only [Option.some_bind]
  have hsplit : input.take (e - 1) = input.take s ++ (input.drop s).take (e - 1 - s) := by
    conv_lhs => rw [show e - 1 = s + (e - 1 - s) from by omega]
    rw [List.take_add]
  rw [hsplit, utf8Len_append]
  have harith : utf8Len (input.take s) + utf8Len ((input.drop s).take (e - 1 - s)) + 1 -
      utf8Len (input.take s) = utf8Len ((input.drop s).take (e - 1 - s)) + 1 := by omega
  rw [harith]
  have hgd : (input.drop s).get? (e - 1 - s) = some ce := by
    rw [List.get?_eq_getElem?, List.getElem?_drop,
      show s + (e - 1 - s) = e - 1 from by omega, ← List.get?_eq_getElem?]
    exact hce
  rw [takeBytes_take_succ (input.drop s) (e - 1 - s) ce hgd]
  by_cases h1 : ce.utf8Size = 1
  · rw [if_pos h1, if_pos h1, List.drop_take, show e - 1 - s + 1 = e - s from by omega]
  · rw [if_neg h1, if_neg h1]

theorem resolve_canonical_same (input : List Char) (e : Nat) (ce : Char)
    (he : 1 ≤ e) (hen : e < input.length) (hce : input.get? (e - 1) = some ce) :
    (Source.mk input (canonicalTable input 0)).resolve_span ⟨e, e⟩ =
      if ce.utf8Size = 1 then some [] else none := by
  rw [resolve_canonical_red input e e he (by omega) (by omega)]
  unfold strGet
  have hts : utf8Len (input.take e) = utf8Len (input.take (e - 1)) + ce.utf8Size := by
    have := utf8Len_take_succ input (e - 1) ce hce
    rwa [show e - 1 + 1 = e from by omega] at this
  have hsz := Char.utf8Size_pos ce
  by_cases h1 : ce.utf8Size = 1
  · rw [if_pos (by omega)]
    have hdrop : dropBytes input (utf8Len (input.take e)) = some (input.drop e) := by
      have := dropBytes_utf8Len_append (input.take e) (input.drop e)
      rwa [List.take_append_drop] at this
    rw [hdrop]
    simp only [Option.some_bind]
    rw [show utf8Len (input.take (e - 1)) + 1 - utf8Len (input.take e) = 0 from by omega]
    rw [takeBytes_zero, if_pos h1]
  · rw [if_neg (by omega), if_neg h1]

theorem resolve_canonical_e0 (input : List Char) (s : Nat) :
    (Source.mk input (canonicalTable input 0)).resolve_span ⟨s, 0⟩ = none := by
  simp [Source.resolve_span, Source.translate_indices]

theorem resolve_canonical_sn (input : List Char) (s e : Nat)
    (he : 1 ≤ e) (hs : input.length ≤ s) :
    (Source.mk input (canonicalTable input 0)).resolve_span ⟨s, e⟩ = none := by
  unfold Source.resolve_span Source.translate_indices
  dsimp only
  rw [if_neg (by omega), translate_index_canonical]
  rw [List.get?_eq_none.mpr hs]
  simp

theorem resolve_canonical_en (input : List Char) (s e : Nat)
    (he : 1 ≤ e) (hen : input.length ≤ e - 1) :
    (Source.mk input (canonicalTable input 0)).resolve_span ⟨s, e⟩ = none := by
  unfold Source.resolve_span Source.translate_indices
  dsimp only
  rw [if_neg (by omega), translate_index_canonical, translate_index_canonical]
  rw [List.get?_eq_none.mpr hen]
  cases input.get? s <;> simp

theorem resolve_canonical_gt (input : List Char) (s e : Nat)
    (he : 1 ≤ e) (hgt : e < s) (hs : s < input.length) :
    (Source.mk input (canonicalTable input 0)).resolve_span ⟨s, e⟩ = none := by
  rw [resolve_canonical_red input s e he hs (by omega)]
  unfold strGet
  have hgap := utf8Len_take_gap input (e - 1) s (by omega) (by omega)
  rw [if_neg (by omega)]


/-- C8 (amended): on a source whose grapheme clusters are all single scalar
values (the table is then `canonicalTable`), `resolve_span` returns the
substring denoted by the span's grapheme range exactly when `1 ≤ end`,
`end ≤ count`, `start ≤ end`, `start < count` *and* the grapheme at
`end − 1` encodes in a single UTF-8 byte; in every other case — an endpoint
out of range, any span with `end = 0` (whose `end − 1` underflows), the empty
span at end-of-source, or a final grapheme wider than one byte (whose
inclusive byte range `start..=offset(end−1)` ends off a character
boundary) — it returns `None`.  The original claim's iff omitted the
`end = 0` and one-byte-final-grapheme conditions; the counterexample shows
both failures. -/
theorem c8_resolve_span_characterization (input : List Char) (sp : Span) (r : List Char) :
    (Source.mk input (canonicalTable input 0)).resolve_span sp = some r ↔
      (1 ≤ sp.stop ∧ sp.stop ≤ input.length ∧ sp.start ≤ sp.stop ∧
       sp.start < input.length ∧
       (∃ c, input.get? (sp.stop - 1) = some c ∧ c.utf8Size = 1) ∧
       r = (input.take sp.stop).drop sp.start) := by
  obtain ⟨s, e⟩ := sp
  dsimp only
  constructor
  · intro h
    by_cases he : 1 ≤ e
    case neg =>
      rw [show e = 0 from by omega, resolve_canonical_e0] at h
      exact absurd h (by simp)
    by_cases hs : s < input.length
    case neg =>
      rw [resolve_canonical_sn input s e he (by omega)] at h
      exact absurd h (by simp)
    by_cases hen : e - 1 < input.length
    case neg =>
      rw [resolve_canonical_en input s e he (by omega)] at h
      exact absurd h (by simp)
    obtain ⟨ce, hce⟩ : ∃ c, input.get? (e - 1) = some c := by
      cases hq : input.get? (e - 1) with
      | none => rw [List.get?_eq_none] at hq; omega
      | some c => exact ⟨c, rfl⟩
    rcases Nat.lt_trichotomy s e with hlt | heq | hgt
    · rw [resolve_canonical_lt input s e ce hlt (by omega) hce] at h
      by_cases h1 : ce.utf8Size = 1
      · rw [if_pos h1] at h
        simp only [Option.some.injEq] at h
        exact ⟨he, by omega, by omega, hs, ⟨ce, hce, h1⟩, h.symm⟩
      · rw [if_neg h1] at h
        exact absurd h (by simp)
    · subst heq
      rw [resolve_canonical_same input s ce he hs hce] at h
      by_cases h1 : ce.utf8Size = 1
      · rw [if_pos h1] at h
        simp only [Option.some.injEq] at h
        refine ⟨he, by omega, le_refl s, hs, ⟨ce, hce, h1⟩, ?_⟩
        rw [← h]
        rw [List.drop_eq_nil_of_le]
        simp only [List.length_take]
        omega
      · rw [if_neg h1] at h
        exact absurd h (by simp)
    · rw [resolve_canonical_gt input s e he hgt hs] at h
      exact absurd h (by simp)
  · rintro ⟨he, hen, hse, hs, ⟨ce, hce, h1⟩, hr⟩
    rcases Nat.lt_or_eq_of_le hse with hlt | heq
    · rw [resolve_canonical_lt input s e ce hlt hen hce, if_pos h1, hr]
    · subst heq
      rw [resolve_canonical_same input s ce he hs hce, if_pos h1, hr]
      rw [List.drop_eq_nil_of_le]
      simp only [List.length_take]
      omega


/-- C8 (counterexample): two in-range spans the claim says resolve but the
code does not.  Over the one-grapheme source `"é"` (one scalar, two UTF-8
bytes) the span 0..1 has both endpoints in range and is non-empty, so the
claim requires the substring `"é"`; the code slices bytes `0..=0`, i.e.
`0..1`, byte 1 falls inside `é`, and `str::get` returns `None`.  Over the
source `"a"` the empty span 0..0 is not at end-of-source, so the claim
requires `Some ""`; the code computes `end - 1 = 0 - 1`, which underflows
(debug panic; release wrap to an out-of-range index), and returns `None`.
Both sources really arise from `Source::from` (first and fourth
conjuncts). -/
theorem c8_counterexample_multibyte_and_underflow :
    Source.build segmentModel ['\u00E9'] = some ⟨['\u00E9'], canonicalTable ['\u00E9'] 0⟩ ∧
    (Source.mk ['\u00E9'] (canonicalTable ['\u00E9'] 0)).resolve_span ⟨0, 1⟩ = none ∧
    (Source.mk ['\u00E9'] (canonicalTable ['\u00E9'] 0)).resolve_span ⟨0, 1⟩ ≠ some ['\u00E9'] ∧
    Source.build segmentModel ['a'] = some ⟨['a'], canonicalTable ['a'] 0⟩ ∧
    (Source.mk ['a'] (canonicalTable ['a'] 0)).resolve_span ⟨0, 0⟩ = none := by
  refine ⟨by decide, by decide, by decide, by decide, by decide⟩

/-! ### Fuel sufficiency for the remaining fuelled definitions -/

theorem segFuel_eq_of_le : ∀ (fuel : Nat) (s : List Char), s.length ≤ fuel →
    ∀ fuel', s.length ≤ fuel' → segFuel fuel s = segFuel fuel' s := by
  intro fuel s
  induction fuel, s using segFuel.induct with
  | case1 s =>
    intro h fuel' h'
    have : s = [] := List.eq_nil_of_length_eq_zero (by omega)
    subst this
    cases fuel' <;> rfl
  | case2 fuel =>
    intro h fuel' h'
    cases fuel' <;> rfl
  | case3 fuel rest ih =>
    intro h fuel' h'
    simp only [List.length_cons] at h h'
    cases fuel' with
    | zero => omega
    | succ fuel' =>
      rw [segFuel.eq_3, segFuel.eq_3]
      rw [ih (by omega) fuel' (by omega)]
  | case4 fuel c rest hno hctl ih =>
    intro h fuel' h'
    simp only [List.length_cons] at h h'
    cases fuel' with
    | zero => omega
    | succ fuel' =>
      rw [segFuel.eq_4 fuel c rest hno, segFuel.eq_4 fuel' c rest hno,
        if_pos hctl, if_pos hctl]
      rw [ih (by omega) fuel' (by omega)]
  | case5 fuel c rest hno hctl ih =>
    intro h fuel' h'
    simp only [List.length_cons] at h h'
    have hdl : (rest.drop (rest.takeWhile isCombining).length).length ≤ rest.length := by
      simp [List.length_drop]
    cases fuel' with
    | zero => omega
    | succ fuel' =>
      rw [segFuel.eq_4 fuel c rest hno, segFuel.eq_4 fuel' c rest hno,
        if_neg hctl, if_neg hctl]
      rw [ih (by omega) fuel' (by omega)]

/-- Fuel `s.length` always suffices for the segmentation. -/
theorem segFuel_fuel_irrel (fuel : Nat) (s : List Char) (h : s.length ≤ fuel) :
    segFuel fuel s = segmentModel s :=
  segFuel_eq_of_le fuel s h s.length (le_refl _)


theorem qualified_name_suffix (src : Source) (acc : List Identifier) (ts : List Token) :
    ∃ k, (qualified_name src acc ts).2 = ts.drop k := by
  obtain ⟨hok, herr⟩ := qualified_name_spec src acc ts
  cases heq : qualified_name src acc ts with
  | mk r ts' =>
    cases r with
    | ok name =>
      obtain ⟨n, -, -, hts⟩ := hok name ts' heq
      exact ⟨2 * n - 1, hts⟩
    | error e =>
      obtain ⟨⟨k, hk⟩, -⟩ := herr e ts' heq
      exact ⟨k, hk⟩

theorem qualified_name_length (src : Source) (acc : List Identifier) (ts : List Token) :
    (qualified_name src acc ts).2.length ≤ ts.length := by
  obtain ⟨k, hk⟩ := qualified_name_suffix src acc ts
  rw [hk]
  simp only [List.length_drop]
  omega

theorem expect_semicolon_length {ts : List Token} {cu : CompilationUnit}
    {p : CompilationUnit × List Token} (h : expect_semicolon ts cu = p) :
    p.2.length ≤ ts.length := by
  subst h
  unfold expect_semicolon
  split <;> simp

theorem next_if_static_length (ts : List Token) :
    (next_if_static ts).2.length ≤ ts.length := by
  unfold next_if_static
  split
  · split <;> simp
  · exact le_refl _

theorem import_declaration_length {src : Source} {ts : List Token}
    {r : Except Error ImportDeclaration} {ts2 : List Token}
    (h : import_declaration src ts = some (r, ts2)) : ts2.length < ts.length := by
  match ts with
  | [] => exact Option.noConfusion h
  | t :: rest =>
    have hst := next_if_static_length rest
    simp only [import_declaration] at h
    have hqs := qualified_name_suffix src [] (next_if_static rest).2
    split at h
    case _ e ts2' heq =>
      simp only [Option.some.injEq, Prod.mk.injEq] at h
      obtain ⟨-, hts⟩ := h
      subst hts
      obtain ⟨k, hk⟩ := hqs
      rw [heq] at hk
      simp only at hk
      subst hk
      simp only [List.length_cons, List.length_drop]
      omega
    case _ name ts2' heq =>
      split at h
      · exact Option.noConfusion h
      case _ lastSeg hlast =>
        split at h
        · exact Option.noConfusion h
        case _ txt hres =>
          simp only [Option.some.injEq, Prod.mk.injEq] at h
          obtain ⟨-, hts⟩ := h
          subst hts
          obtain ⟨k, hk⟩ := hqs
          rw [heq] at hk
          simp only at hk
          subst hk
          simp only [List.length_cons, List.length_drop]
          omega

theorem compilation_unit_item_length {src : Source} {t : Token} {rest : List Token}
    {cu cu2 : CompilationUnit} {ts2 : List Token}
    (h : compilation_unit_item src t rest cu = some (cu2, ts2)) :
    ts2.length ≤ rest.length := by
  cases t <;> simp only [compilation_unit_item] at h <;>
    try (simp only [Option.some.injEq, Prod.mk.injEq] at h
         obtain ⟨-, hts⟩ := h
         subst hts
         exact le_refl _)
  case keyword k =>
    split at h
    · -- package
      simp only [Option.some.injEq] at h
      have h1 := expect_semicolon_length h
      simp only at h1
      have h2 : (package_declaration src (Token.keyword k :: rest)).2.length ≤ rest.length :=
        qualified_name_length src [] rest
      omega
    · split at h
      · -- import
        split at h
        · exact Option.noConfusion h
        case _ r ts2' heq =>
          have hil := import_declaration_length heq
          simp only [Option.some.injEq] at h
          have h1 := expect_semicolon_length h
          simp only at h1
          simp only [List.length_cons] at hil
          omega
      · -- catch-all keyword
        simp only [Option.some.injEq, Prod.mk.injEq] at h
        obtain ⟨-, hts⟩ := h
        subst hts
        exact le_refl _

/-- Fuel irrelevance for the parser loop: any fuel of at least
`ts.length + 1` gives the same outcome, i.e. every loop iteration strictly
consumes tokens and the loop completes within that many iterations. -/
theorem compilation_unit_loop_eq_of_le (src : Source) :
    ∀ fuel fuel' (ts : List Token) (cu : CompilationUnit), ts.length + 1 ≤ fuel →
      ts.length + 1 ≤ fuel' →
      compilation_unit_loop src fuel ts cu = compilation_unit_loop src fuel' ts cu := by
  intro fuel
  induction fuel with
  | zero => intro fuel' ts cu h h'; omega
  | succ fuel ih =>
    intro fuel' ts cu h h'
    cases fuel' with
    | zero => omega
    | succ fuel' =>
      cases ts with
      | nil => rfl
      | cons t rest =>
        simp only [compilation_unit_loop]
        cases heq : compilation_unit_item src t rest cu with
        | none => rfl
        | some p =>
          obtain ⟨cu2, ts2⟩ := p
          have hlen := compilation_unit_item_length heq
          simp only [List.length_cons] at h h'
          show compilation_unit_loop src fuel ts2 cu2 = compilation_unit_loop src fuel' ts2 cu2
          exact ih fuel' ts2 cu2 (by omega) (by omega)


end JavaRS
